import Mathlib

/-!
Verification development for the `game_score_rs` repository (`src/score.rs`,
`src/main.rs`): a score-aggregation and ranking pipeline.

Modeling conventions of the shallow embedding:

* Rust `f64` is modeled by the type `F64` below: `nan`, `inf`, `neginf`,
  or a rational `fin q`.  IEEE comparison semantics are kept exactly (`nan`
  compares false with everything under both `==` and `<`, `inf == inf`
  holds).  Addition of finite values is the exact sum rounded to the
  nearest binary64 value, ties to even, overflowing to the infinities
  (`roundDouble`), as IEEE `f64` addition behaves.  Two spots stay
  idealized: the decimal-literal parse keeps the written value exactly
  instead of rounding it to binary64, and the `total / count` division is
  exact; every concrete run below uses exactly-representable values, where
  the idealization and the machine agree.
* Rational arithmetic is expressed through `Rat.divInt` and integer
  operations so that every definition evaluates by kernel reduction;
  bridge lemmas (`qadd_spec`, `qdivNat_spec`, `roundAway_spec`) relate these
  to the ordinary field operations of `ℚ`.
* Rust `u32` counters (`play_count`, `rank`) are modeled by `Nat`; in the
  source an overflowing increment would abort (panic) before any wrapped
  value became observable, so no modular reduction is needed for the
  observable states.
* A file is modeled by the list of its line contents: `BufRead::read_line`
  yields each physical line and `line.lines().collect()[0]` strips the
  terminator, so the loaders below receive the terminator-free contents
  directly.  An empty physical line (`"\n"`) arrives as the content `""`.
* `HashMap<String, _>` is modeled by an association list with unique keys;
  `into_values` is modeled by insertion order (the Rust iteration order is
  arbitrary, and no property proved here depends on it).
* Rust `String` ordering (byte-wise lexicographic, which for UTF-8 agrees
  with codepoint-wise lexicographic order) is modeled by `strLt` on the
  codepoint list of the string.
-/

/-- Idealized model of a Rust `f64` value: a NaN, one of the two infinities,
or an exact finite rational. -/
inductive F64 where
  | nan : F64
  | inf : F64
  | neginf : F64
  | fin : ℚ → F64
deriving DecidableEq

/-- Kernel-computable rational addition (the exact sum, before rounding):
`qadd a b = a + b` (lemma `qadd_spec`). -/
def qadd (a b : ℚ) : ℚ :=
  Rat.divInt (a.num * b.den + b.num * a.den) (a.den * b.den)

/-- Kernel-computable division of a rational by a natural number:
`qdivNat a n = a / n` (lemma `qdivNat_spec`). -/
def qdivNat (a : ℚ) (n : Nat) : ℚ :=
  Rat.divInt a.num (a.den * n)

/-- Round half away from zero, the rounding of Rust's `f64::round`
(lemma `roundAway_spec`: it is `⌊q + 1/2⌋` for `0 ≤ q` and `⌈q - 1/2⌉`
otherwise). -/
def roundAway (q : ℚ) : ℤ :=
  if 0 ≤ q.num then (2 * q.num + q.den) / (2 * (q.den : ℤ))
  else -((-(2 * q.num) + q.den) / (2 * (q.den : ℤ)))

/-- Floor of base-2 logarithm on positive naturals, by fuel-bounded
halving; the fuel only bounds the recursion depth, and 4100 exceeds the bit
length of every number arising from binary64 values. -/
def log2Fuel : Nat → Nat → Nat
  | 0, _ => 0
  | fuel + 1, n => if 2 ≤ n then log2Fuel fuel (n / 2) + 1 else 0

/-- Floor of the base-2 logarithm of a positive natural. -/
def log2Nat (n : Nat) : Nat :=
  log2Fuel 4100 n

/-- Floor of the base-2 logarithm of `a / b` for positive naturals: the
bit-length estimate is off by at most one and is fixed up by a direct
comparison of `2 ^ e0` with `a / b`. -/
def floorLog2 (a b : Nat) : Int :=
  let e0 : Int := (log2Nat a : Int) - log2Nat b
  if 0 ≤ e0 then
    (if b * 2 ^ e0.toNat ≤ a then e0 else e0 - 1)
  else
    (if b ≤ a * 2 ^ (-e0).toNat then e0 else e0 - 1)

/-- Round the non-negative rational `a / b` to the nearest integer, ties to
even. -/
def rne (a b : Nat) : Nat :=
  let t := a / b
  let r := a % b
  if 2 * r < b then t
  else if b < 2 * r then t + 1
  else if t % 2 = 0 then t else t + 1

/-- Round an exact rational to the nearest binary64 value (round to
nearest, ties to even): 53-bit significand, so the scaling exponent is
`⌊log2 |q|⌋ - 52`, clamped at the subnormal quantum `2 ^ (-1074)`; a
rounded magnitude reaching `2 ^ 1024` overflows to the infinities (the
significand is at most `2 ^ 53`, so overflow requires an exponent of at
least 971, checked first to keep the test cheap on ordinary values). -/
def roundDouble (q : ℚ) : F64 :=
  if q.num = 0 then F64.fin 0
  else
    let a := q.num.natAbs
    let b := q.den
    let e : Int := max (floorLog2 a b - 52) (-1074)
    let n : Nat := if 0 ≤ e then rne a (b * 2 ^ e.toNat) else rne (a * 2 ^ (-e).toNat) b
    if 0 ≤ e ∧ 971 ≤ e ∧ 2 ^ 1024 ≤ n * 2 ^ e.toNat then
      (if q.num < 0 then F64.neginf else F64.inf)
    else
      F64.fin (if 0 ≤ e then
        Rat.divInt ((if q.num < 0 then -(n : Int) else (n : Int)) * 2 ^ e.toNat) 1
      else
        Rat.divInt (if q.num < 0 then -(n : Int) else (n : Int)) (2 ^ (-e).toNat))

/-- IEEE `==` on the `f64` model: `nan` is equal to nothing (itself
included), the infinities are equal to themselves, finite values compare
exactly. -/
def F64.feq : F64 → F64 → Bool
  | .nan, _ => false
  | _, .nan => false
  | .inf, .inf => true
  | .inf, _ => false
  | _, .inf => false
  | .neginf, .neginf => true
  | .neginf, _ => false
  | _, .neginf => false
  | .fin a, .fin b => a = b

/-- IEEE `<` on the `f64` model: any comparison involving `nan` is false;
otherwise `neginf < fin _ < inf` with exact order on finite values. -/
def F64.flt : F64 → F64 → Bool
  | .nan, _ => false
  | _, .nan => false
  | .neginf, .neginf => false
  | .neginf, _ => true
  | _, .neginf => false
  | .inf, _ => false
  | .fin _, .inf => true
  | .fin a, .fin b => a < b

/-- IEEE `+` on the `f64` model: `nan` is absorbing, `inf + neginf = nan`,
each infinity absorbs finite values, and the sum of two finite values is
the exact sum rounded to the nearest binary64 value (so this addition is
commutative but, like IEEE addition, not associative). -/
def F64.fadd : F64 → F64 → F64
  | .nan, _ => .nan
  | _, .nan => .nan
  | .inf, .neginf => .nan
  | .neginf, .inf => .nan
  | .inf, _ => .inf
  | _, .inf => .inf
  | .neginf, _ => .neginf
  | _, .neginf => .neginf
  | .fin a, .fin b => roundDouble (qadd a b)

/-- Division of an `f64` by a (positive) `u32` count, as in
`total_score / play_count as f64`. -/
def F64.fdivNat : F64 → Nat → F64
  | .nan, _ => .nan
  | .inf, _ => .inf
  | .neginf, _ => .neginf
  | .fin a, n => .fin (qdivNat a n)

/-- Rust `f64::round`: round half away from zero on finite values, identity
on `nan` and the infinities. -/
def F64.fround : F64 → F64
  | .nan => .nan
  | .inf => .inf
  | .neginf => .neginf
  | .fin q => .fin (roundAway q)

/-- Whether the modeled `f64` is a finite value. -/
def F64.finite : F64 → Bool
  | .fin _ => true
  | _ => false

/-- Byte/codepoint-wise lexicographic order on character lists, the order of
Rust's `Ord for String` (for UTF-8 strings the byte order and the codepoint
order agree). -/
def strLtChars : List Char → List Char → Bool
  | [], [] => false
  | [], _ :: _ => true
  | _ :: _, [] => false
  | a :: as, b :: bs =>
    if a.toNat < b.toNat then true
    else if b.toNat < a.toNat then false
    else strLtChars as bs

/-- Rust `String` comparison `<` (lexicographic). -/
def strLt (a b : String) : Bool :=
  strLtChars a.data b.data

/-- Rust `str::split(",")`: split a character list at every comma, keeping
empty pieces; the result is always non-empty. -/
def splitComma : List Char → List (List Char)
  | [] => [[]]
  | c :: rest =>
    if c = ',' then [] :: splitComma rest
    else
      match splitComma rest with
      | [] => [[c]]
      | p :: ps => (c :: p) :: ps

/-- `line.split(",").collect::<Vec<&str>>()` on a line's content. -/
def splitLine (line : String) : List String :=
  (splitComma line.data).map String.mk

/-- ASCII lower-casing of one character (Rust's keyword matching in
`f64::from_str` is ASCII-case-insensitive). -/
def asciiLower (c : Char) : Char :=
  if 65 ≤ c.toNat ∧ c.toNat ≤ 90 then Char.ofNat (c.toNat + 32) else c

/-- Decimal digit test. -/
def isDigitC (c : Char) : Bool :=
  48 ≤ c.toNat ∧ c.toNat ≤ 57

/-- Numeric value of a decimal digit list (most significant first). -/
def digitsVal (cs : List Char) : Nat :=
  cs.foldl (fun n c => 10 * n + (c.toNat - 48)) 0

/-- Strip an optional leading sign; returns whether the sign was `-` and the
remaining characters. -/
def stripSign : List Char → Bool × List Char
  | '-' :: rest => (true, rest)
  | '+' :: rest => (false, rest)
  | cs => (false, cs)

/-- Parse the exponent suffix of an `f64` literal: either nothing, or
`e`/`E` followed by an optionally signed non-empty digit string (the input
is already lower-cased).  Trailing junk rejects the whole literal. -/
def parseExpPart : List Char → Option Int
  | [] => some 0
  | c :: rest =>
    if c = 'e' then
      match stripSign rest with
      | (neg, ds) =>
        if ds ≠ [] ∧ ds.all isDigitC then
          some (if neg then -(digitsVal ds : Int) else (digitsVal ds : Int))
        else none
    else none

/-- Parse the mantissa of an `f64` literal: `digits`, `digits.digits`,
`digits.` or `.digits`, with at least one digit in total.  Returns the
mantissa as an integer numerator with a power-of-ten denominator, plus the
unconsumed rest. -/
def parseMantissa (cs : List Char) : Option ((Int × Nat) × List Char) :=
  let intPart := cs.takeWhile isDigitC
  let rest1 := cs.dropWhile isDigitC
  match rest1 with
  | '.' :: rest2 =>
    let fracPart := rest2.takeWhile isDigitC
    let rest3 := rest2.dropWhile isDigitC
    if intPart.isEmpty ∧ fracPart.isEmpty then none
    else
      some (((digitsVal intPart * 10 ^ fracPart.length + digitsVal fracPart : Int),
             10 ^ fracPart.length), rest3)
  | _ =>
    if intPart.isEmpty then none
    else some (((digitsVal intPart : Int), 1), rest1)

/-- Rust `str::parse::<f64>()` on the model: optional sign, then the
case-insensitive keywords `inf`/`infinity`/`nan` or a decimal literal with
optional fraction and exponent.  Finite values are kept exact. -/
def parseF64 (s : String) : Option F64 :=
  let cs := s.data.map asciiLower
  match stripSign cs with
  | (neg, body) =>
    if body = "inf".data ∨ body = "infinity".data then
      some (if neg then F64.neginf else F64.inf)
    else if body = "nan".data then some F64.nan
    else
      match parseMantissa body with
      | none => none
      | some ((n, d), rest) =>
        match parseExpPart rest with
        | none => none
        | some e =>
          let sn : Int := if neg then -n else n
          if 0 ≤ e then some (F64.fin (Rat.divInt (sn * 10 ^ e.toNat) d))
          else some (F64.fin (Rat.divInt sn (d * 10 ^ (-e).toNat)))

/-- The `Player` struct of `score.rs`. -/
structure Player where
  player_id : String
  handle_name : String
deriving DecidableEq

/-- `Player::new`. -/
def Player.new (player_id handle_name : String) : Player :=
  { player_id := player_id, handle_name := handle_name }

/-- The `Score` accumulator struct of `score.rs`. -/
structure Score where
  player_id : String
  total_score : F64
  mean_score : F64
  play_count : Nat
deriving DecidableEq

/-- `Score::new`: first play of a player. -/
def Score.new (player_id : String) (score : F64) : Score :=
  { player_id := player_id, total_score := score, mean_score := .fin 0,
    play_count := 1 }

/-- `Score::add`: fold one more play into the accumulator. -/
def Score.add (s : Score) (score : F64) : Score :=
  { s with total_score := s.total_score.fadd score,
           play_count := s.play_count + 1 }

/-- `Score::average`: derive the rounded mean, guarded by
`play_count != 0`. -/
def Score.average (s : Score) : Score :=
  if s.play_count ≠ 0 then
    { s with mean_score := (s.total_score.fdivNat s.play_count).fround }
  else s

/-- The `RankingScore` view of `score.rs` (the borrowed accumulator is
modeled by value). -/
structure RankingScore where
  rank : Nat
  inner : Score
deriving DecidableEq

/-- `HashMap::get` by key on the association-list model. -/
def lookupKey : List (String × Score) → String → Option Score
  | [], _ => none
  | p :: rest, pid => if p.1 = pid then some p.2 else lookupKey rest pid

/-- `HashMap::get_mut` followed by a mutation on the association-list
model: rewrite the (unique) entry with the given key. -/
def updateScore (l : List (String × Score)) (pid : String) (f : Score → Score) :
    List (String × Score) :=
  l.map (fun p => if p.1 = pid then (p.1, f p.2) else p)

/-- `HashMap::insert` on the association-list model for the player
directory: replace the entry if the key exists, append otherwise
(last write wins). -/
def insertPlayer : List (String × Player) → String → Player → List (String × Player)
  | [], pid, pl => [(pid, pl)]
  | p :: rest, pid, pl =>
    if p.1 = pid then (pid, pl) :: rest else p :: insertPlayer rest pid pl

/-- The line loop of `get_players`: split each line content on `,`, require
exactly two fields, insert into the directory. -/
def getPlayersLoop : List String → List (String × Player) → Except String (List (String × Player))
  | [], players => Except.ok players
  | line :: rest, players =>
    match splitLine line with
    | [player_id, handle_name] =>
      getPlayersLoop rest (insertPlayer players player_id (Player.new player_id handle_name))
    | _ => Except.error "プレイヤーファイルのフォーマットが不正です"

/-- `get_players` on a file given as its list of line contents: skip exactly
one header line, then run the line loop on an empty directory. -/
def get_players (input : List String) : Except String (List (String × Player)) :=
  getPlayersLoop (input.drop 1) []

/-- The line loop of `get_scores`: split each line content on `,`, require
exactly three fields, parse the score field as `f64`, then create or fold
the player's accumulator. -/
def getScoresLoop : List String → List (String × Score) → Except String (List (String × Score))
  | [], scores => Except.ok scores
  | line :: rest, scores =>
    match splitLine line with
    | [_, player_id, sc] =>
      match parseF64 sc with
      | none => Except.error "スコアがフォーマットが不正です"
      | some score =>
        match lookupKey scores player_id with
        | some _ => getScoresLoop rest (updateScore scores player_id (fun s => s.add score))
        | none => getScoresLoop rest (scores ++ [(player_id, Score.new player_id score)])
    | _ => Except.error "スコアファイルのフォーマットが不正です"

/-- `get_scores` on a file given as its list of line contents: skip exactly
one header line, run the line loop, then apply `Score::average` to every
accumulator and return the values. -/
def get_scores (input : List String) : Except String (List Score) :=
  (getScoresLoop (input.drop 1) []).map (fun scores => scores.map (fun p => p.2.average))

/-- The comparator closure passed to `sort_by` in `sort`: mean score
descending, and on `==`-equal means player id ascending.  It never returns
`Ordering.eq`. -/
def cmpScore (a b : Score) : Ordering :=
  if a.mean_score.feq b.mean_score then
    if strLt b.player_id a.player_id then .gt else .lt
  else if a.mean_score.flt b.mean_score then .gt else .lt

/-- One insertion step of the sort model: place `a` before the first element
it does not compare `Greater` to. -/
def oInsert (a : Score) : List Score → List Score
  | [] => [a]
  | b :: l => if cmpScore a b = .gt then b :: oInsert a l else a :: b :: l

/-- The `sort` function of `score.rs`: a comparison sort by `cmpScore`
(the comparator never answers `eq`, so whenever it is a strict order the
sorted permutation is unique and any comparison sort computes it). -/
def sort : List Score → List Score
  | [] => []
  | a :: l => oInsert a (sort l)

/-- The `rank` function of `score.rs`, inner loop: emit the current entry
with the current rank, look ahead to decide the next rank (same on
`==`-equal means, else one more), and stop once the next rank would exceed
the limit. -/
def rankLoop : List Score → Nat → Nat → List RankingScore
  | [], _, _ => []
  | [s], r, _ => [⟨r, s⟩]
  | s :: t :: rest, r, limit =>
    if limit < (if s.mean_score.feq t.mean_score then r else r + 1) then [⟨r, s⟩]
    else
      ⟨r, s⟩ :: rankLoop (t :: rest) (if s.mean_score.feq t.mean_score then r else r + 1) limit

/-- The `rank` function of `score.rs`: walk the sorted sequence starting at
rank 1 with the cutoff `limit`. -/
def rank (scores : List Score) (limit : Nat) : List RankingScore :=
  rankLoop scores 1 limit

/-- The same walk with no cutoff: assigns to every entry of the sequence its
dense competition rank.  Used to state the cutoff property. -/
def rankAllLoop : List Score → Nat → List RankingScore
  | [], _ => []
  | [s], r => [⟨r, s⟩]
  | s :: t :: rest, r =>
    ⟨r, s⟩ :: rankAllLoop (t :: rest) (if s.mean_score.feq t.mean_score then r else r + 1)

/-- The parse of one score-log line as `get_scores` performs it: `some`
exactly when the line splits into three fields whose third parses as `f64`. -/
def parseLine (line : String) : Option (String × F64) :=
  match splitLine line with
  | [_, player_id, sc] => (parseF64 sc).map (fun x => (player_id, x))
  | _ => none

/-- The per-player entries of a score log (player id and parsed score of
each well-formed line after the header). -/
def scoreEntries (input : List String) : List (String × F64) :=
  (input.drop 1).filterMap parseLine

/-- The `f64` total of a list of scores exactly as the loop computes it:
the first score seeds the accumulator (`Score::new`) and every later score
is folded in from the left with `fadd` (`Score::add`).  The order of the
list matters, because `fadd` rounds. -/
def sumF : List F64 → F64
  | [] => F64.fin 0
  | x :: rest => rest.foldl F64.fadd x

/-- Number of entries with the given player id. -/
def keyCount (l : List (String × F64)) (pid : String) : Nat :=
  (l.filter (fun p => p.1 = pid)).length

/-- Sum of the scores of the entries with the given player id. -/
def keySum (l : List (String × F64)) (pid : String) : F64 :=
  sumF ((l.filter (fun p => p.1 = pid)).map Prod.snd)

/-- Invariant of the `get_scores` folding loop: the accumulator map has
unique keys, its key set is the set of player ids processed so far, and
every accumulator holds its key as `player_id`, an untouched `mean_score`
of `0.0`, and the count and sum of the entries processed for its key. -/
def ScoresInv (processed : List (String × F64)) (acc : List (String × Score)) : Prop :=
  (acc.map Prod.fst).Nodup ∧
  (∀ pid : String, pid ∈ acc.map Prod.fst ↔ pid ∈ processed.map Prod.fst) ∧
  (∀ pr ∈ acc, pr.2.player_id = pr.1 ∧ pr.2.mean_score = F64.fin 0 ∧
    pr.2.play_count = keyCount processed pr.1 ∧
    pr.2.total_score = keySum processed pr.1)

theorem qadd_spec (a b : ℚ) : qadd a b = a + b := by
  have ha : ((a.den : ℤ)) ≠ 0 := Int.natCast_ne_zero.mpr a.den_nz
  have hb : ((b.den : ℤ)) ≠ 0 := Int.natCast_ne_zero.mpr b.den_nz
  rw [qadd]
  conv_rhs => rw [← Rat.divInt_self a, ← Rat.divInt_self b]
  rw [Rat.divInt_add_divInt _ _ ha hb]

theorem qdivNat_spec (a : ℚ) (n : Nat) : qdivNat a n = a / n := by
  rw [qdivNat, Rat.divInt_eq_div]
  rcases eq_or_ne n 0 with h | h
  · subst h; simp
  · conv_rhs => rw [← Rat.num_div_den a]
    rw [div_div]
    push_cast
    ring_nf

theorem floorHalf (q : ℚ) :
    ⌊q + (1 : ℚ) / 2⌋ = (2 * q.num + q.den) / (2 * (q.den : ℤ)) := by
  have hden : ((q.den : ℚ)) ≠ 0 := by exact_mod_cast q.den_nz
  have h : q + (1 : ℚ) / 2 = ((2 * q.num + q.den : ℤ) : ℚ) / ((2 * q.den : ℕ) : ℚ) := by
    conv_lhs => rw [← Rat.num_div_den q]
    push_cast
    field_simp
    ring
  rw [h]
  have := Rat.floor_intCast_div_natCast (2 * q.num + q.den) (2 * q.den)
  push_cast at this ⊢
  rw [this]

theorem roundAway_spec (q : ℚ) :
    roundAway q = if 0 ≤ q then ⌊q + (1 : ℚ) / 2⌋ else ⌈q - (1 : ℚ) / 2⌉ := by
  rw [roundAway]
  by_cases h : 0 ≤ q
  · rw [if_pos (Rat.num_nonneg.mpr h), if_pos h, floorHalf]
  · rw [if_neg (fun hn => h (Rat.num_nonneg.mp hn)), if_neg h]
    have hceil : ⌈q - (1 : ℚ) / 2⌉ = -⌊-q + (1 : ℚ) / 2⌋ := by
      have harg : (-q + (1 : ℚ) / 2) = -(q - (1 : ℚ) / 2) := by ring
      rw [harg, Int.floor_neg, neg_neg]
    rw [hceil, floorHalf (-q), Rat.num_neg_eq_neg_num, Rat.neg_den]
    ring_nf

theorem fadd_comm (a b : F64) : a.fadd b = b.fadd a := by
  cases a <;> cases b <;> simp only [F64.fadd]
  rw [qadd_spec, qadd_spec, add_comm]

theorem fdivNat_one (a : F64) : a.fdivNat 1 = a := by
  cases a <;> simp [F64.fdivNat, qdivNat_spec]

theorem sumF_append_of_ne_nil (l : List F64) (x : F64) (h : l ≠ []) :
    sumF (l ++ [x]) = (sumF l).fadd x := by
  cases l with
  | nil => exact absurd rfl h
  | cons y t =>
    show (t ++ [x]).foldl F64.fadd y = F64.fadd (t.foldl F64.fadd y) x
    rw [List.foldl_append]
    rfl

theorem charEqOfToNat {a b : Char} (h : a.toNat = b.toNat) : a = b :=
  Char.eq_of_val_eq (UInt32.ext h)

theorem strLtChars_asymm : ∀ a b, strLtChars a b = true → strLtChars b a = false
  | [], [] => by simp [strLtChars]
  | [], _ :: _ => fun _ => by simp [strLtChars]
  | _ :: _, [] => by simp [strLtChars]
  | a :: as, b :: bs => fun h => by
    simp only [strLtChars] at h ⊢
    split_ifs at h ⊢ <;> first | rfl | omega | exact strLtChars_asymm as bs h

theorem strLtChars_trans : ∀ a b c,
    strLtChars a b = true → strLtChars b c = true → strLtChars a c = true
  | [], [], _ => fun h _ => by simp [strLtChars] at h
  | [], _ :: _, [] => fun _ h => by simp [strLtChars] at h
  | [], _ :: _, _ :: _ => fun _ _ => by simp [strLtChars]
  | _ :: _, [], _ => fun h _ => by simp [strLtChars] at h
  | _ :: _, _ :: _, [] => fun _ h => by simp [strLtChars] at h
  | a :: as, b :: bs, c :: cs => fun h1 h2 => by
    simp only [strLtChars] at h1 h2 ⊢
    split_ifs at h1 h2 ⊢ <;>
      first | rfl | omega | exact strLtChars_trans as bs cs h1 h2

theorem strLtChars_trichotomy : ∀ a b,
    a = b ∨ strLtChars a b = true ∨ strLtChars b a = true
  | [], [] => Or.inl rfl
  | [], _ :: _ => Or.inr (Or.inl (by simp [strLtChars]))
  | _ :: _, [] => Or.inr (Or.inr (by simp [strLtChars]))
  | a :: as, b :: bs => by
    rcases Nat.lt_trichotomy a.toNat b.toNat with h | h | h
    · exact Or.inr (Or.inl (by simp [strLtChars, h]))
    · have e : a = b := charEqOfToNat h
      subst e
      rcases strLtChars_trichotomy as bs with h2 | h2 | h2
      · exact Or.inl (by rw [h2])
      · exact Or.inr (Or.inl (by simp [strLtChars, h2]))
      · exact Or.inr (Or.inr (by simp [strLtChars, h2]))
    · exact Or.inr (Or.inr (by simp [strLtChars, h]))

theorem strLt_asymm {a b : String} (h : strLt a b = true) : strLt b a = false :=
  strLtChars_asymm _ _ h

theorem strLt_trans {a b c : String} (h1 : strLt a b = true) (h2 : strLt b c = true) :
    strLt a c = true :=
  strLtChars_trans _ _ _ h1 h2

theorem strLt_trichotomy (a b : String) : a = b ∨ strLt a b = true ∨ strLt b a = true := by
  rcases strLtChars_trichotomy a.data b.data with h | h | h
  · left
    cases a; cases b
    exact congrArg String.mk h
  · exact Or.inr (Or.inl h)
  · exact Or.inr (Or.inr h)

theorem feq_symm (a b : F64) : a.feq b = b.feq a := by
  cases a <;> cases b <;> simp [F64.feq, eq_comm]

theorem feq_true_iff {a b : F64} (ha : a ≠ F64.nan) (hb : b ≠ F64.nan) :
    a.feq b = true ↔ a = b := by
  cases a <;> cases b <;> simp_all [F64.feq]

theorem flt_asymm {a b : F64} (h : a.flt b = true) : b.flt a = false := by
  cases a <;> cases b <;> simp_all [F64.flt]
  exact le_of_lt h

theorem flt_trans {a b c : F64} (h1 : a.flt b = true) (h2 : b.flt c = true) :
    a.flt c = true := by
  cases a <;> cases b <;> cases c <;> simp_all [F64.flt]
  exact lt_trans h1 h2

theorem flt_trichotomy {a b : F64} (ha : a ≠ F64.nan) (hb : b ≠ F64.nan) :
    a = b ∨ a.flt b = true ∨ b.flt a = true := by
  cases a <;> cases b <;> simp_all [F64.flt]
  exact eq_or_ne _ _

theorem flt_nan_left (b : F64) : F64.nan.flt b = false := by
  cases b <;> rfl

theorem flt_nan_right (a : F64) : a.flt F64.nan = false := by
  cases a <;> rfl

theorem feq_nan_left (b : F64) : F64.nan.feq b = false := by
  cases b <;> rfl

theorem feq_nan_right (a : F64) : a.feq F64.nan = false := by
  cases a <;> rfl

theorem flt_irrefl (a : F64) : a.flt a = false := by
  cases a <;> simp [F64.flt]

theorem strLt_false_trans {a b c : String} (h1 : strLt b a = false) (h2 : strLt c b = false) :
    strLt c a = false := by
  by_contra hca
  have hca' : strLt c a = true := by simpa using hca
  rcases strLt_trichotomy a b with e | hab | hba
  · subst e
    exact absurd hca' (by simp [h2])
  · have hcb := strLt_trans hca' hab
    rw [hcb] at h2
    exact Bool.noConfusion h2
  · rw [hba] at h1
    exact Bool.noConfusion h1

theorem cmpScore_lt_or_gt (a b : Score) :
    cmpScore a b = Ordering.lt ∨ cmpScore a b = Ordering.gt := by
  rw [cmpScore]
  split_ifs <;> simp

theorem cmpScore_ne_eq (a b : Score) : cmpScore a b ≠ Ordering.eq := by
  rw [cmpScore]
  split_ifs <;> simp

theorem cmpScore_gt_flip {a b : Score} (h : cmpScore a b = Ordering.gt) :
    cmpScore b a = Ordering.lt := by
  rw [cmpScore] at h
  rw [cmpScore]
  by_cases c1 : a.mean_score.feq b.mean_score = true
  · have d1 : b.mean_score.feq a.mean_score = true := by rw [feq_symm]; exact c1
    rw [if_pos c1] at h
    rw [if_pos d1]
    by_cases c2 : strLt b.player_id a.player_id = true
    · have d2 := strLt_asymm c2
      rw [if_neg (by simp [d2])]
    · rw [if_neg c2] at h
      simp at h
  · have d1 : ¬ b.mean_score.feq a.mean_score = true := by rw [feq_symm]; exact c1
    rw [if_neg c1] at h
    rw [if_neg d1]
    by_cases c3 : a.mean_score.flt b.mean_score = true
    · have d3 := flt_asymm c3
      rw [if_neg (by simp [d3])]
    · rw [if_neg c3] at h
      simp at h

theorem cmpScore_lt_iff {a b : Score}
    (ha : a.mean_score ≠ F64.nan) (hb : b.mean_score ≠ F64.nan) :
    cmpScore a b = Ordering.lt ↔
      (b.mean_score.flt a.mean_score = true ∨
        (a.mean_score = b.mean_score ∧ strLt b.player_id a.player_id = false)) := by
  rw [cmpScore]
  by_cases c1 : a.mean_score.feq b.mean_score = true
  · have e : a.mean_score = b.mean_score := (feq_true_iff ha hb).mp c1
    rw [if_pos c1]
    by_cases c2 : strLt b.player_id a.player_id = true
    · rw [if_pos c2]
      simp [e, flt_irrefl, c2]
    · rw [if_neg c2]
      simp only [Bool.not_eq_true] at c2
      simp [e, c2]
  · have e : a.mean_score ≠ b.mean_score := fun hme => c1 ((feq_true_iff ha hb).mpr hme)
    rw [if_neg c1]
    by_cases c3 : a.mean_score.flt b.mean_score = true
    · rw [if_pos c3]
      have hba : b.mean_score.flt a.mean_score = false := flt_asymm c3
      simp [hba, e]
    · rw [if_neg c3]
      rcases flt_trichotomy ha hb with he | hab | hba
      · exact absurd he e
      · exact absurd hab c3
      · simp [hba, e]

theorem cmpScore_lt_trans {a b c : Score}
    (ha : a.mean_score ≠ F64.nan) (hb : b.mean_score ≠ F64.nan) (hc : c.mean_score ≠ F64.nan)
    (h1 : cmpScore a b = Ordering.lt) (h2 : cmpScore b c = Ordering.lt) :
    cmpScore a c = Ordering.lt := by
  rw [cmpScore_lt_iff ha hb] at h1
  rw [cmpScore_lt_iff hb hc] at h2
  rw [cmpScore_lt_iff ha hc]
  rcases h1 with hf1 | ⟨e1, s1⟩
  · rcases h2 with hf2 | ⟨e2, s2⟩
    · exact Or.inl (flt_trans hf2 hf1)
    · exact Or.inl (e2 ▸ hf1)
  · rcases h2 with hf2 | ⟨e2, s2⟩
    · exact Or.inl (e1 ▸ hf2)
    · exact Or.inr ⟨e1.trans e2, strLt_false_trans s1 s2⟩

theorem oInsert_perm (a : Score) : ∀ l : List Score, (oInsert a l).Perm (a :: l)
  | [] => List.Perm.refl _
  | b :: l => by
    rw [oInsert]
    split_ifs with h
    · exact ((oInsert_perm a l).cons b).trans (List.Perm.swap a b l)
    · exact List.Perm.refl _

theorem sort_perm : ∀ l : List Score, (sort l).Perm l
  | [] => List.Perm.refl _
  | a :: l => by
    rw [sort]
    exact (oInsert_perm a (sort l)).trans ((sort_perm l).cons a)

theorem oInsert_pairwise {a : Score} {l : List Score}
    (hnan : ∀ s ∈ a :: l, s.mean_score ≠ F64.nan)
    (hp : l.Pairwise (fun x y => cmpScore x y ≠ Ordering.gt)) :
    (oInsert a l).Pairwise (fun x y => cmpScore x y ≠ Ordering.gt) := by
  induction l with
  | nil => simp [oInsert]
  | cons b l ih =>
    rw [oInsert]
    rcases List.pairwise_cons.mp hp with ⟨hb, hp'⟩
    split_ifs with hgt
    · have hnan' : ∀ s ∈ a :: l, s.mean_score ≠ F64.nan := by
        intro s hs
        rcases List.mem_cons.mp hs with rfl | hs
        · exact hnan s (by simp)
        · exact hnan s (by simp [hs])
      refine List.pairwise_cons.mpr ⟨?_, ih hnan' hp'⟩
      intro x hx
      have hx' : x ∈ a :: l := (oInsert_perm a l).mem_iff.mp hx
      rcases List.mem_cons.mp hx' with rfl | hxl
      · rw [cmpScore_gt_flip hgt]
        simp
      · exact hb x hxl
    · refine List.pairwise_cons.mpr ⟨?_, hp⟩
      intro x hx
      rcases List.mem_cons.mp hx with rfl | hxl
      · exact hgt
      · have na : a.mean_score ≠ F64.nan := hnan a (by simp)
        have nb : b.mean_score ≠ F64.nan := hnan b (by simp)
        have nx : x.mean_score ≠ F64.nan := hnan x (by simp [hxl])
        have hab : cmpScore a b = Ordering.lt := by
          rcases cmpScore_lt_or_gt a b with h | h
          · exact h
          · exact absurd h hgt
        have hbx : cmpScore b x = Ordering.lt := by
          rcases cmpScore_lt_or_gt b x with h | h
          · exact h
          · exact absurd h (hb x hxl)
        rw [cmpScore_lt_trans na nb nx hab hbx]
        simp

theorem sort_pairwise : ∀ l : List Score, (∀ s ∈ l, s.mean_score ≠ F64.nan) →
    (sort l).Pairwise (fun x y => cmpScore x y ≠ Ordering.gt)
  | [], _ => by simp [sort]
  | a :: l, hnan => by
    rw [sort]
    have hp := sort_pairwise l (fun s hs => hnan s (by simp [hs]))
    refine oInsert_pairwise ?_ hp
    intro s hs
    rcases List.mem_cons.mp hs with rfl | hs
    · exact hnan s (by simp)
    · exact hnan s (by simp [(sort_perm l).mem_iff.mp hs])

theorem rankLoop_head (s : Score) (rest : List Score) (r limit : Nat) :
    ∃ tail, rankLoop (s :: rest) r limit = ⟨r, s⟩ :: tail := by
  cases rest with
  | nil => exact ⟨[], rfl⟩
  | cons t rest' =>
    rw [rankLoop]
    split_ifs <;> exact ⟨_, rfl⟩

theorem rankAllLoop_rank_ge : ∀ (l : List Score) (r : Nat), ∀ p ∈ rankAllLoop l r, r ≤ p.rank
  | [], r => by simp [rankAllLoop]
  | [s], r => by simp [rankAllLoop]
  | s :: t :: rest, r => by
    intro p hp
    rw [rankAllLoop] at hp
    rcases List.mem_cons.mp hp with rfl | hp
    · exact le_refl _
    · have hrec := rankAllLoop_rank_ge (t :: rest)
        (if s.mean_score.feq t.mean_score then r else r + 1) p hp
      split_ifs at hrec with h
      · exact hrec
      · omega

theorem rankLoop_eq_filter : ∀ (l : List Score) (r limit : Nat), r ≤ limit →
    rankLoop l r limit = (rankAllLoop l r).filter (fun p => p.rank ≤ limit)
  | [], r, limit, _ => by simp [rankLoop, rankAllLoop]
  | [s], r, limit, h => by simp [rankLoop, rankAllLoop, h]
  | s :: t :: rest, r, limit, h => by
    rw [rankLoop, rankAllLoop]
    rw [List.filter_cons_of_pos (by simpa using h)]
    by_cases hfe : s.mean_score.feq t.mean_score = true
    · simp only [if_pos hfe]
      split_ifs with hlim
      · have hnone : ∀ p ∈ rankAllLoop (t :: rest) r, ¬ p.rank ≤ limit := by
          intro p hp hle
          have := rankAllLoop_rank_ge _ _ p hp
          omega
        rw [List.filter_eq_nil_iff.mpr (by simpa using hnone)]
      · rw [rankLoop_eq_filter (t :: rest) r limit (by omega)]
    · simp only [if_neg hfe]
      split_ifs with hlim
      · have hnone : ∀ p ∈ rankAllLoop (t :: rest) (r + 1), ¬ p.rank ≤ limit := by
          intro p hp hle
          have := rankAllLoop_rank_ge _ _ p hp
          omega
        rw [List.filter_eq_nil_iff.mpr (by simpa using hnone)]
      · rw [rankLoop_eq_filter (t :: rest) (r + 1) limit (by omega)]

theorem rankLoop_chain : ∀ (l : List Score) (r limit : Nat),
    (rankLoop l r limit).Chain' (fun p q =>
      (p.rank ≤ q.rank ∧ q.rank ≤ p.rank + 1) ∧
      (q.rank = p.rank ↔ p.inner.mean_score.feq q.inner.mean_score = true))
  | [], _, _ => by simp [rankLoop]
  | [s], _, _ => by simp [rankLoop]
  | s :: t :: rest, r, limit => by
    rw [rankLoop]
    by_cases hfe : s.mean_score.feq t.mean_score = true
    · simp only [if_pos hfe]
      split_ifs with hlim
      · simp
      · obtain ⟨tail, htail⟩ := rankLoop_head t rest r limit
        rw [htail]
        refine List.chain'_cons.mpr ⟨⟨⟨le_refl _, Nat.le_succ r⟩, by simp [hfe]⟩, ?_⟩
        rw [← htail]
        exact rankLoop_chain (t :: rest) r limit
    · simp only [if_neg hfe]
      split_ifs with hlim
      · simp
      · obtain ⟨tail, htail⟩ := rankLoop_head t rest (r + 1) limit
        rw [htail]
        have hfe' : s.mean_score.feq t.mean_score = false := by simpa using hfe
        refine List.chain'_cons.mpr ⟨⟨⟨Nat.le_succ r, le_refl _⟩, by simp [hfe']⟩, ?_⟩
        rw [← htail]
        exact rankLoop_chain (t :: rest) (r + 1) limit

theorem keyCount_append (l : List (String × F64)) (q : String) (x : F64) (pid : String) :
    keyCount (l ++ [(q, x)]) pid = keyCount l pid + (if q = pid then 1 else 0) := by
  rw [keyCount, keyCount, List.filter_append, List.length_append]
  congr 1
  by_cases h : q = pid <;> simp [List.filter, h]

theorem keySum_append_same {l : List (String × F64)} {pid : String} (x : F64)
    (h : pid ∈ l.map Prod.fst) :
    keySum (l ++ [(pid, x)]) pid = (keySum l pid).fadd x := by
  rw [keySum, keySum, List.filter_append]
  have hx : List.filter (fun p => decide (p.1 = pid)) [(pid, x)] = [(pid, x)] := by
    simp [List.filter]
  rw [hx, List.map_append]
  apply sumF_append_of_ne_nil
  obtain ⟨p, hp, hpe⟩ := List.mem_map.mp h
  have hmem : p ∈ l.filter (fun p' => decide (p'.1 = pid)) :=
    List.mem_filter.mpr ⟨hp, by simp [hpe]⟩
  exact List.ne_nil_of_mem (List.mem_map_of_mem Prod.snd hmem)

theorem keySum_append_other {l : List (String × F64)} {q pid : String} (x : F64)
    (h : ¬ q = pid) :
    keySum (l ++ [(q, x)]) pid = keySum l pid := by
  rw [keySum, keySum, List.filter_append]
  have hx : List.filter (fun p => decide (p.1 = pid)) [(q, x)] = [] := by
    simp [List.filter, h]
  rw [hx, List.append_nil]

theorem keySum_append_new {l : List (String × F64)} {pid : String} (x : F64)
    (h : pid ∉ l.map Prod.fst) :
    keySum (l ++ [(pid, x)]) pid = x := by
  rw [keySum, List.filter_append]
  have h0 : List.filter (fun p => decide (p.1 = pid)) l = [] := by
    rw [List.filter_eq_nil_iff]
    intro p hp
    simp only [decide_eq_true_eq]
    intro hpe
    exact h (List.mem_map.mpr ⟨p, hp, hpe⟩)
  have hx : List.filter (fun p => decide (p.1 = pid)) [(pid, x)] = [(pid, x)] := by
    simp [List.filter]
  rw [h0, hx]
  rfl

theorem keyCount_zero_of_not_mem {l : List (String × F64)} {pid : String}
    (h : pid ∉ l.map Prod.fst) : keyCount l pid = 0 := by
  rw [keyCount]
  rw [List.filter_eq_nil_iff.mpr]
  · rfl
  · intro p hp
    simp only [decide_eq_true_eq]
    intro hpe
    exact h (List.mem_map.mpr ⟨p, hp, hpe⟩)

theorem keyCount_pos_of_mem {l : List (String × F64)} {pid : String}
    (h : pid ∈ l.map Prod.fst) : 1 ≤ keyCount l pid := by
  obtain ⟨p, hp, hpe⟩ := List.mem_map.mp h
  have hmem : p ∈ l.filter (fun p' => p'.1 = pid) :=
    List.mem_filter.mpr ⟨hp, by simp [hpe]⟩
  have := List.length_pos_of_mem hmem
  rw [keyCount]
  omega

theorem lookupKey_none_iff : ∀ (l : List (String × Score)) (pid : String),
    lookupKey l pid = none ↔ pid ∉ l.map Prod.fst
  | [], pid => by simp [lookupKey]
  | p :: rest, pid => by
    rw [lookupKey]
    split_ifs with h
    · simp [h]
    · rw [List.map_cons]
      rw [lookupKey_none_iff rest pid]
      simp only [List.mem_cons]
      constructor
      · intro hnot hor
        rcases hor with he | hm
        · exact h he.symm
        · exact hnot hm
      · intro hnot hm
        exact hnot (Or.inr hm)

theorem updateScore_map_fst (l : List (String × Score)) (pid : String) (f : Score → Score) :
    (updateScore l pid f).map Prod.fst = l.map Prod.fst := by
  simp only [updateScore, List.map_map]
  apply List.map_congr_left
  intro p hp
  by_cases h : p.1 = pid <;> simp [h]

theorem ScoresInv_nil : ScoresInv [] [] := by
  refine ⟨List.nodup_nil, fun pid => Iff.rfl, ?_⟩
  intro pr hpr
  cases hpr

theorem ScoresInv_update {processed : List (String × F64)} {acc : List (String × Score)}
    {pid : String} {x : F64}
    (hinv : ScoresInv processed acc) (hmem : pid ∈ acc.map Prod.fst) :
    ScoresInv (processed ++ [(pid, x)]) (updateScore acc pid (fun s => s.add x)) := by
  obtain ⟨hnd, hmemiff, hfields⟩ := hinv
  refine ⟨by rw [updateScore_map_fst]; exact hnd, ?_, ?_⟩
  · intro q
    rw [updateScore_map_fst]
    simp only [List.map_append, List.mem_append, List.map_cons, List.map_nil,
      List.mem_singleton]
    constructor
    · intro hq
      exact Or.inl ((hmemiff q).mp hq)
    · rintro (hq | rfl)
      · exact (hmemiff q).mpr hq
      · exact hmem
  · intro pr hpr
    obtain ⟨p0, hp0, rfl⟩ := List.mem_map.mp hpr
    obtain ⟨hid, hmean, hcount, htotal⟩ := hfields p0 hp0
    by_cases he : p0.1 = pid
    · simp only [if_pos he]
      refine ⟨by simp [Score.add, hid], by simp [Score.add, hmean], ?_, ?_⟩
      · simp [Score.add, hcount, keyCount_append, he]
      · have hproc : pid ∈ processed.map Prod.fst := (hmemiff pid).mp hmem
        simp [Score.add, htotal, he, keySum_append_same x hproc]
    · simp only [if_neg he]
      have hne : ¬ pid = p0.1 := fun hq => he hq.symm
      refine ⟨hid, hmean, ?_, ?_⟩
      · rw [hcount, keyCount_append]
        simp [hne]
      · rw [htotal, keySum_append_other x hne]

theorem ScoresInv_new {processed : List (String × F64)} {acc : List (String × Score)}
    {pid : String} {x : F64}
    (hinv : ScoresInv processed acc) (hnot : pid ∉ acc.map Prod.fst) :
    ScoresInv (processed ++ [(pid, x)]) (acc ++ [(pid, Score.new pid x)]) := by
  obtain ⟨hnd, hmemiff, hfields⟩ := hinv
  have hpnot : pid ∉ processed.map Prod.fst := fun hm => hnot ((hmemiff pid).mpr hm)
  refine ⟨?_, ?_, ?_⟩
  · rw [List.map_append]
    refine List.Nodup.append hnd (by simp) ?_
    intro q hq hq'
    simp only [List.map_cons, List.map_nil, List.mem_singleton] at hq'
    subst hq'
    exact hnot hq
  · intro q
    simp only [List.map_append, List.mem_append]
    exact or_congr (hmemiff q) Iff.rfl
  · intro pr hpr
    rcases List.mem_append.mp hpr with hpr | hpr
    · obtain ⟨hid, hmean, hcount, htotal⟩ := hfields pr hpr
      have hne : ¬ pid = pr.1 := by
        intro hq
        exact hnot (hq ▸ List.mem_map.mpr ⟨pr, hpr, rfl⟩)
      refine ⟨hid, hmean, ?_, ?_⟩
      · rw [hcount, keyCount_append]
        simp [hne]
      · rw [htotal, keySum_append_other x hne]
    · simp only [List.mem_singleton] at hpr
      subst hpr
      refine ⟨rfl, rfl, ?_, ?_⟩
      · simp only [Score.new]
        rw [keyCount_append, keyCount_zero_of_not_mem hpnot]
        simp
      · simp only [Score.new]
        rw [keySum_append_new x hpnot]

theorem getScoresLoop_inv : ∀ (lines : List String) (processed : List (String × F64))
    (acc res : List (String × Score)),
    getScoresLoop lines acc = Except.ok res → ScoresInv processed acc →
    ScoresInv (processed ++ lines.filterMap parseLine) res
  | [], processed, acc, res => by
    intro h hinv
    rw [getScoresLoop] at h
    cases h
    simpa using hinv
  | line :: rest, processed, acc, res => by
    intro h hinv
    rw [getScoresLoop] at h
    rw [List.filterMap_cons]
    rcases hsp : splitLine line with _ | ⟨f0, _ | ⟨f1, _ | ⟨f2, _ | ⟨f3, tl⟩⟩⟩⟩
    · simp only [hsp] at h
      exact Except.noConfusion h
    · simp only [hsp] at h
      exact Except.noConfusion h
    · simp only [hsp] at h
      exact Except.noConfusion h
    · simp only [hsp] at h
      cases hps : parseF64 f2 with
      | none =>
        rw [hps] at h
        exact Except.noConfusion h
      | some x =>
        rw [hps] at h
        have hpl : parseLine line = some (f1, x) := by
          simp [parseLine, hsp, hps]
        rw [hpl]
        cases hlk : lookupKey acc f1 with
        | some s0 =>
          rw [hlk] at h
          have hm : f1 ∈ acc.map Prod.fst := by
            by_contra hq
            rw [(lookupKey_none_iff acc f1).mpr hq] at hlk
            exact Option.noConfusion hlk
          have hrec := getScoresLoop_inv rest (processed ++ [(f1, x)]) _ res h
            (ScoresInv_update hinv hm)
          rw [List.append_assoc] at hrec
          simpa using hrec
        | none =>
          rw [hlk] at h
          have hq : f1 ∉ acc.map Prod.fst := (lookupKey_none_iff acc f1).mp hlk
          have hrec := getScoresLoop_inv rest (processed ++ [(f1, x)]) _ res h
            (ScoresInv_new hinv hq)
          rw [List.append_assoc] at hrec
          simpa using hrec
    · simp only [hsp] at h
      exact Except.noConfusion h

theorem getPlayersLoop_error : ∀ (lines : List String) (players : List (String × Player)),
    (∃ line ∈ lines, (splitLine line).length ≠ 2) →
    ∃ e, getPlayersLoop lines players = Except.error e
  | [], players => by
    rintro ⟨line, hmem, _⟩
    cases hmem
  | line :: rest, players => by
    rintro ⟨l0, hmem, hbad⟩
    rw [getPlayersLoop]
    rcases hsp : splitLine line with _ | ⟨f0, _ | ⟨f1, _ | ⟨f2, tl⟩⟩⟩
    · simp only [hsp]
      exact ⟨_, rfl⟩
    · simp only [hsp]
      exact ⟨_, rfl⟩
    · simp only [hsp]
      rcases List.mem_cons.mp hmem with rfl | hmem'
      · rw [hsp] at hbad
        simp at hbad
      · exact getPlayersLoop_error rest _ ⟨l0, hmem', hbad⟩
    · simp only [hsp]
      exact ⟨_, rfl⟩

theorem getScoresLoop_error : ∀ (lines : List String) (acc : List (String × Score)),
    (∃ line ∈ lines, parseLine line = none) →
    ∃ e, getScoresLoop lines acc = Except.error e
  | [], acc => by
    rintro ⟨line, hmem, _⟩
    cases hmem
  | line :: rest, acc => by
    rintro ⟨l0, hmem, hbad⟩
    rw [getScoresLoop]
    rcases hsp : splitLine line with _ | ⟨f0, _ | ⟨f1, _ | ⟨f2, _ | ⟨f3, tl⟩⟩⟩⟩
    · simp only [hsp]
      exact ⟨_, rfl⟩
    · simp only [hsp]
      exact ⟨_, rfl⟩
    · simp only [hsp]
      exact ⟨_, rfl⟩
    · simp only [hsp]
      cases hps : parseF64 f2 with
      | none => exact ⟨_, rfl⟩
      | some x =>
        rcases List.mem_cons.mp hmem with rfl | hmem'
        · have hpl : parseLine l0 = some (f1, x) := by
            simp [parseLine, hsp, hps]
          rw [hpl] at hbad
          exact Option.noConfusion hbad
        · cases hlk : lookupKey acc f1 with
          | some s0 => exact getScoresLoop_error rest _ ⟨l0, hmem', hbad⟩
          | none => exact getScoresLoop_error rest _ ⟨l0, hmem', hbad⟩
    · simp only [hsp]
      exact ⟨_, rfl⟩

theorem get_scores_inv (input : List String) (scores : List Score)
    (h : get_scores input = Except.ok scores) :
    ∃ acc : List (String × Score),
      ScoresInv (scoreEntries input) acc ∧ scores = acc.map (fun p => p.2.average) := by
  rw [get_scores] at h
  cases hloop : getScoresLoop (input.drop 1) [] with
  | error e =>
    rw [hloop] at h
    exact Except.noConfusion h
  | ok acc =>
    rw [hloop] at h
    have hh : acc.map (fun p => p.2.average) = scores := by
      simpa [Except.map] using h
    exact ⟨acc,
      by simpa [scoreEntries] using getScoresLoop_inv (input.drop 1) [] [] acc hloop ScoresInv_nil,
      hh.symm⟩

theorem average_player_id (s : Score) : s.average.player_id = s.player_id := by
  rw [Score.average]
  split_ifs <;> rfl

theorem average_total (s : Score) : s.average.total_score = s.total_score := by
  rw [Score.average]
  split_ifs <;> rfl

theorem average_count (s : Score) : s.average.play_count = s.play_count := by
  rw [Score.average]
  split_ifs <;> rfl

theorem average_mean (s : Score) (h : s.play_count ≠ 0) :
    s.average.mean_score = (s.total_score.fdivNat s.play_count).fround := by
  rw [Score.average, if_pos h]

theorem get_scores_fields (input : List String) (scores : List Score)
    (h : get_scores input = Except.ok scores) :
    ∀ s ∈ scores, 1 ≤ s.play_count ∧
      s.play_count = keyCount (scoreEntries input) s.player_id ∧
      s.total_score = keySum (scoreEntries input) s.player_id ∧
      s.mean_score = (s.total_score.fdivNat s.play_count).fround := by
  obtain ⟨acc, hinv, rfl⟩ := get_scores_inv input scores h
  obtain ⟨hnd, hmemiff, hfields⟩ := hinv
  intro s hs
  obtain ⟨p, hp, rfl⟩ := List.mem_map.mp hs
  obtain ⟨hid, hmean, hcount, htotal⟩ := hfields p hp
  have hkmem : p.1 ∈ (scoreEntries input).map Prod.fst :=
    (hmemiff p.1).mp (List.mem_map.mpr ⟨p, hp, rfl⟩)
  have hpos : 1 ≤ p.2.play_count := by
    rw [hcount]
    exact keyCount_pos_of_mem hkmem
  have hne : p.2.play_count ≠ 0 := by omega
  refine ⟨?_, ?_, ?_, ?_⟩
  · rw [average_count]
    exact hpos
  · rw [average_count, average_player_id, hid, hcount]
  · rw [average_total, average_player_id, hid, htotal]
  · rw [average_mean _ hne, average_total, average_count]

/-- C9: every `Score` accumulator satisfies `play_count >= 1`: `Score::new`
creates it with `play_count = 1`, `Score::add` preserves positivity, every
accumulator observable in a `get_scores` result has a positive count, and
`Score::average` therefore takes its guarded branch and performs the
division on that positive count. -/
theorem claim_C9_play_count_invariant :
    (∀ (pid : String) (x : F64), (Score.new pid x).play_count = 1) ∧
    (∀ (s : Score) (x : F64), 1 ≤ s.play_count → 1 ≤ (s.add x).play_count) ∧
    (∀ (input : List String) (scores : List Score),
      get_scores input = Except.ok scores → ∀ s ∈ scores, 1 ≤ s.play_count) ∧
    (∀ s : Score, 1 ≤ s.play_count →
      s.average = { s with mean_score := (s.total_score.fdivNat s.play_count).fround }) := by
  refine ⟨fun pid x => rfl, fun s x h => ?_, fun input scores h s hs => ?_, fun s h => ?_⟩
  · simp only [Score.add]
    omega
  · exact (get_scores_fields input scores h s hs).1
  · rw [Score.average, if_pos (by omega)]

/-- Witness for C9 at a concrete accumulator: one `add` on a fresh
accumulator keeps the count positive. -/
theorem claim_C9_witness :
    1 ≤ ((Score.new "a" (F64.fin 0)).add (F64.fin 1)).play_count :=
  claim_C9_play_count_invariant.2.1 (Score.new "a" (F64.fin 0)) (F64.fin 1) (by decide)

/-- C5: in every successful `get_scores` result, `mean_score` equals
`round(total_score / play_count)` (round half away from zero, the `f64::round`
rule, applied once after all folding), and a single-play accumulator has the
rounded single score as its mean. -/
theorem claim_C5_mean_rounded (input : List String) (scores : List Score)
    (h : get_scores input = Except.ok scores) :
    ∀ s ∈ scores, s.mean_score = (s.total_score.fdivNat s.play_count).fround ∧
      (s.play_count = 1 → s.mean_score = s.total_score.fround) := by
  intro s hs
  obtain ⟨hpos, hcount, htotal, hmean⟩ := get_scores_fields input scores h s hs
  refine ⟨hmean, fun h1 => ?_⟩
  rw [hmean, h1, fdivNat_one]

/-- Witness for C5 on the spec's worked example: alice's two plays 80 and 90
give total 170, count 2 and mean `round(170/2) = 85`. -/
theorem claim_C5_witness :
    (Score.mk "alice" (F64.fin 170) (F64.fin 85) 2).mean_score =
      ((Score.mk "alice" (F64.fin 170) (F64.fin 85) 2).total_score.fdivNat
        (Score.mk "alice" (F64.fin 170) (F64.fin 85) 2).play_count).fround ∧
    ((Score.mk "alice" (F64.fin 170) (F64.fin 85) 2).play_count = 1 →
      (Score.mk "alice" (F64.fin 170) (F64.fin 85) 2).mean_score =
        (Score.mk "alice" (F64.fin 170) (F64.fin 85) 2).total_score.fround) :=
  claim_C5_mean_rounded ["h", "p1,alice,80", "p3,alice,90"]
    [Score.mk "alice" (F64.fin 170) (F64.fin 85) 2] (by rfl) _ (by decide)

/-- C10: Rust's `f64` parsing accepts the non-finite literals `NaN` and
`inf`, so a score log line carrying them is accepted by `get_scores` without
a score-parse error and yields an accumulator whose `total_score` and
`mean_score` are non-finite. -/
theorem claim_C10_nonfinite_accepted :
    parseF64 "NaN" = some F64.nan ∧ parseF64 "inf" = some F64.inf ∧
    get_scores ["play_id,player_id,score", "p1,alice,NaN"] =
      Except.ok [Score.mk "alice" F64.nan F64.nan 1] ∧
    get_scores ["play_id,player_id,score", "p2,bob,inf"] =
      Except.ok [Score.mk "bob" F64.inf F64.inf 1] ∧
    F64.nan.finite = false ∧ F64.inf.finite = false :=
  ⟨rfl, rfl, rfl, rfl, rfl, rfl⟩

/-- C3 fails as stated: an empty line after the header is not skipped; in
both loaders it is split into a single empty field and rejected as a
wrong-field-count format error, so the loads abort instead of ignoring the
line. -/
theorem claim_C3_counterexample :
    get_players ["player_id,handle_name", ""] =
      Except.error "プレイヤーファイルのフォーマットが不正です" ∧
    get_scores ["play_id,player_id,score", ""] =
      Except.error "スコアファイルのフォーマットが不正です" :=
  ⟨rfl, rfl⟩

/-- C3 (amended): after skipping exactly one header line, each remaining
line is split on `,` and validated; an empty line after the header splits
into one empty field and is reported as a wrong-field-count format error
(aborting the load) in both the player-directory loader and the score-log
loader, rather than being skipped. -/
theorem claim_C3_empty_line_error (input1 input2 : List String)
    (h1 : "" ∈ input1.drop 1) (h2 : "" ∈ input2.drop 1) :
    splitLine "" = [""] ∧
    (get_players input2).isOk = false ∧
    (get_scores input1).isOk = false := by
  refine ⟨rfl, ?_, ?_⟩
  · obtain ⟨e, he⟩ := getPlayersLoop_error (input2.drop 1) [] ⟨"", h2, by decide⟩
    rw [get_players, he]
    rfl
  · obtain ⟨e, he⟩ := getScoresLoop_error (input1.drop 1) [] ⟨"", h1, rfl⟩
    rw [get_scores, he]
    rfl

/-- Witness for the amended C3 on concrete one-empty-line inputs. -/
theorem claim_C3_witness :
    splitLine "" = [""] ∧
    (get_players ["player_id,handle_name", ""]).isOk = false ∧
    (get_scores ["play_id,player_id,score", ""]).isOk = false :=
  claim_C3_empty_line_error ["play_id,player_id,score", ""]
    ["player_id,handle_name", ""] (by decide) (by decide)

/-- C8: if any score-log line after the header splits into a field count
other than 3 or its score field fails to parse as `f64`, `get_scores`
aborts with an error and returns no collection; likewise `get_players`
aborts when a line splits into a field count other than 2. -/
theorem claim_C8_loaders_abort (input1 input2 : List String)
    (h1 : ∃ line ∈ input1.drop 1, (splitLine line).length ≠ 3 ∨
      parseF64 ((splitLine line).getD 2 "") = none)
    (h2 : ∃ line ∈ input2.drop 1, (splitLine line).length ≠ 2) :
    (get_scores input1).isOk = false ∧ (get_players input2).isOk = false := by
  constructor
  · have hbad : ∃ line ∈ input1.drop 1, parseLine line = none := by
      obtain ⟨line, hmem, hb⟩ := h1
      refine ⟨line, hmem, ?_⟩
      rw [parseLine]
      rcases hsp : splitLine line with _ | ⟨f0, _ | ⟨f1, _ | ⟨f2, _ | ⟨f3, tl⟩⟩⟩⟩
      · rfl
      · rfl
      · rfl
      · rcases hb with hlen | hparse
        · rw [hsp] at hlen
          simp at hlen
        · rw [hsp] at hparse
          show (parseF64 f2).map (fun x => (f1, x)) = none
          rw [show (([f0, f1, f2] : List String).getD 2 "") = f2 from rfl] at hparse
          rw [hparse]
          rfl
      · rfl
    obtain ⟨e, he⟩ := getScoresLoop_error (input1.drop 1) [] hbad
    rw [get_scores, he]
    rfl
  · obtain ⟨e, he⟩ := getPlayersLoop_error (input2.drop 1) [] h2
    rw [get_players, he]
    rfl

/-- Witness for C8 on concrete malformed inputs: a two-field score line and
an unparsable score both abort `get_scores`; a one-field player line aborts
`get_players`. -/
theorem claim_C8_witness :
    (get_scores ["play_id,player_id,score", "p1,alice"]).isOk = false ∧
    (get_players ["player_id,handle_name", "alice"]).isOk = false :=
  claim_C8_loaders_abort ["play_id,player_id,score", "p1,alice"]
    ["player_id,handle_name", "alice"] ⟨"p1,alice", by decide, by decide⟩
    ⟨"alice", by decide, by decide⟩

/-- C1 fails as stated at `limit = 0`: the loop pushes the first entry
before checking the cutoff, so a non-empty input emits a rank-1 entry even
though `1 > 0`. -/
theorem claim_C1_counterexample :
    ¬ (∀ p ∈ rank [Score.new "p" (F64.fin 0)] 0, p.rank ≤ 0) := by
  decide

/-- C1 (amended): for every sorted accumulator sequence and every
`limit ≥ 1`, `rank` emits exactly the entries of the full dense ranking
whose rank is at most `limit`: no emitted entry has rank above `limit`,
every entry of rank at most `limit` is emitted, and a tied group at the
boundary rank is kept whole.  (When `limit = 0` the first entry is still
emitted with rank 1.) -/
theorem claim_C1_rank_cutoff (scores : List Score) (limit : Nat) (h : 1 ≤ limit) :
    rank scores limit = (rankAllLoop scores 1).filter (fun p => p.rank ≤ limit) ∧
    (∀ p ∈ rank scores limit, p.rank ≤ limit) ∧
    (∀ p ∈ rankAllLoop scores 1, p.rank ≤ limit → p ∈ rank scores limit) := by
  have heq : rank scores limit = (rankAllLoop scores 1).filter (fun p => p.rank ≤ limit) := by
    rw [rank]
    exact rankLoop_eq_filter scores 1 limit h
  refine ⟨heq, ?_, ?_⟩
  · intro p hp
    rw [heq] at hp
    simpa using List.of_mem_filter hp
  · intro p hp hle
    rw [heq]
    exact List.mem_filter.mpr ⟨hp, by simpa using hle⟩

/-- Witness for the amended C1 at `limit = 1` on a two-way tie: both rank-1
entries are emitted and the filter characterization holds. -/
theorem claim_C1_witness :
    1 ≤ 1 ∧
    rank [Score.mk "a" (F64.fin 90) (F64.fin 90) 1,
          Score.mk "b" (F64.fin 90) (F64.fin 90) 1,
          Score.mk "c" (F64.fin 70) (F64.fin 70) 1] 1 =
      (rankAllLoop [Score.mk "a" (F64.fin 90) (F64.fin 90) 1,
                    Score.mk "b" (F64.fin 90) (F64.fin 90) 1,
                    Score.mk "c" (F64.fin 70) (F64.fin 70) 1] 1).filter
        (fun p => p.rank ≤ 1) :=
  ⟨by decide,
    (claim_C1_rank_cutoff [Score.mk "a" (F64.fin 90) (F64.fin 90) 1,
      Score.mk "b" (F64.fin 90) (F64.fin 90) 1,
      Score.mk "c" (F64.fin 70) (F64.fin 70) 1] 1 (by decide)).1⟩

/-- C4: for every non-empty sorted sequence and every limit, the emitted
ranks start at 1 and along consecutive emitted entries the rank is
non-decreasing, grows by at most 1, and stays equal exactly when the two
entries' mean scores are `==`-equal. -/
theorem claim_C4_rank_dense (scores : List Score) (limit : Nat) (h : scores ≠ []) :
    (rank scores limit).head?.map RankingScore.rank = some 1 ∧
    (rank scores limit).Chain' (fun p q =>
      (p.rank ≤ q.rank ∧ q.rank ≤ p.rank + 1) ∧
      (q.rank = p.rank ↔ p.inner.mean_score.feq q.inner.mean_score = true)) := by
  constructor
  · obtain ⟨s, rest, rfl⟩ := List.exists_cons_of_ne_nil h
    obtain ⟨tail, htail⟩ := rankLoop_head s rest 1 limit
    rw [rank, htail]
    rfl
  · exact rankLoop_chain scores 1 limit

/-- Witness for C4 on a concrete three-entry sequence with a tie. -/
theorem claim_C4_witness :
    (rank [Score.mk "a" (F64.fin 90) (F64.fin 90) 1,
           Score.mk "b" (F64.fin 90) (F64.fin 90) 1,
           Score.mk "c" (F64.fin 70) (F64.fin 70) 1] 10).head?.map RankingScore.rank =
      some 1 :=
  (claim_C4_rank_dense [Score.mk "a" (F64.fin 90) (F64.fin 90) 1,
    Score.mk "b" (F64.fin 90) (F64.fin 90) 1,
    Score.mk "c" (F64.fin 70) (F64.fin 70) 1] 10 (by decide)).1

/-- C2 fails as stated: two aggregated accumulators can both carry a NaN
mean (scores parsed from `NaN`), and then the comparator answers `lt` in
both directions — each "strictly precedes" the other although they are not
identical, so the comparison is not consistent on non-finite means. -/
theorem claim_C2_counterexample :
    get_scores ["play_id,player_id,score", "p1,alice,NaN", "p2,bob,NaN"] =
      Except.ok [Score.mk "alice" F64.nan F64.nan 1, Score.mk "bob" F64.nan F64.nan 1] ∧
    cmpScore (Score.mk "alice" F64.nan F64.nan 1) (Score.mk "bob" F64.nan F64.nan 1) =
      Ordering.lt ∧
    cmpScore (Score.mk "bob" F64.nan F64.nan 1) (Score.mk "alice" F64.nan F64.nan 1) =
      Ordering.lt ∧
    Score.mk "alice" F64.nan F64.nan 1 ≠ Score.mk "bob" F64.nan F64.nan 1 :=
  ⟨rfl, rfl, rfl, by decide⟩

/-- C2 (amended): restricted to accumulators whose mean scores are not NaN
(and with the distinct player ids aggregation guarantees), the comparator is
a strict total order: it never answers `eq`, one direction answers `lt`
exactly when the other answers `gt`, exactly one of the two strict outcomes
holds for a pair, and the strict precedence is transitive. -/
theorem claim_C2_cmp_total_order (a b c : Score)
    (ha : a.mean_score ≠ F64.nan) (hb : b.mean_score ≠ F64.nan) (hc : c.mean_score ≠ F64.nan)
    (hab : a.player_id ≠ b.player_id) :
    cmpScore a b ≠ Ordering.eq ∧
    (cmpScore a b = Ordering.lt ↔ cmpScore b a = Ordering.gt) ∧
    ((cmpScore a b = Ordering.lt ∧ cmpScore b a = Ordering.gt) ∨
      (cmpScore a b = Ordering.gt ∧ cmpScore b a = Ordering.lt)) ∧
    (cmpScore a b = Ordering.lt → cmpScore b c = Ordering.lt → cmpScore a c = Ordering.lt) := by
  have hflip : cmpScore a b = Ordering.lt ↔ cmpScore b a = Ordering.gt := by
    constructor
    · intro hlt
      rcases cmpScore_lt_or_gt b a with hba | hba
      · exfalso
        rw [cmpScore_lt_iff ha hb] at hlt
        rw [cmpScore_lt_iff hb ha] at hba
        rcases hlt with hf | ⟨he, hs⟩ <;> rcases hba with hf' | ⟨he', hs'⟩
        · rw [flt_asymm hf'] at hf
          exact Bool.noConfusion hf
        · rw [he'] at hf
          rw [flt_irrefl] at hf
          exact Bool.noConfusion hf
        · rw [he] at hf'
          rw [flt_irrefl] at hf'
          exact Bool.noConfusion hf'
        · rcases strLt_trichotomy a.player_id b.player_id with he2 | h2 | h2
          · exact hab he2
          · rw [h2] at hs'
            exact Bool.noConfusion hs'
          · rw [h2] at hs
            exact Bool.noConfusion hs
      · exact hba
    · exact cmpScore_gt_flip
  refine ⟨cmpScore_ne_eq a b, hflip, ?_, cmpScore_lt_trans ha hb hc⟩
  rcases cmpScore_lt_or_gt a b with h | h
  · exact Or.inl ⟨h, hflip.mp h⟩
  · exact Or.inr ⟨h, cmpScore_gt_flip h⟩

/-- Witness for the amended C2 on three concrete finite-mean accumulators. -/
theorem claim_C2_witness :
    cmpScore (Score.mk "a" (F64.fin 90) (F64.fin 90) 1)
        (Score.mk "b" (F64.fin 90) (F64.fin 90) 1) = Ordering.lt ↔
      cmpScore (Score.mk "b" (F64.fin 90) (F64.fin 90) 1)
        (Score.mk "a" (F64.fin 90) (F64.fin 90) 1) = Ordering.gt :=
  (claim_C2_cmp_total_order (Score.mk "a" (F64.fin 90) (F64.fin 90) 1)
    (Score.mk "b" (F64.fin 90) (F64.fin 90) 1)
    (Score.mk "c" (F64.fin 70) (F64.fin 70) 1)
    (by decide) (by decide) (by decide) (by decide)).2.1

/-- C7 fails as stated: an aggregated sequence may contain a NaN mean (C10),
and after `sort` the adjacent pair is then neither ordered by descending
mean (no `<` holds against NaN) nor an exact tie broken by id (no `==`
holds either), so the output is not ordered by the claimed keys. -/
theorem claim_C7_counterexample :
    get_scores ["play_id,player_id,score", "p1,alice,NaN", "p2,bob,90"] =
      Except.ok [Score.mk "alice" F64.nan F64.nan 1,
                 Score.mk "bob" (F64.fin 90) (F64.fin 90) 1] ∧
    sort [Score.mk "alice" F64.nan F64.nan 1,
          Score.mk "bob" (F64.fin 90) (F64.fin 90) 1] =
      [Score.mk "alice" F64.nan F64.nan 1,
       Score.mk "bob" (F64.fin 90) (F64.fin 90) 1] ∧
    (Score.mk "bob" (F64.fin 90) (F64.fin 90) 1).mean_score.flt
      (Score.mk "alice" F64.nan F64.nan 1).mean_score = false ∧
    (Score.mk "alice" F64.nan F64.nan 1).mean_score.feq
      (Score.mk "bob" (F64.fin 90) (F64.fin 90) 1).mean_score = false :=
  ⟨rfl, rfl, rfl, rfl⟩

/-- C7 (amended): when no accumulator carries a NaN mean, `sort` permutes
the sequence into one ordered by mean score strictly descending, with
`==`-equal means ordered by player id ascending (byte-lexicographic, no
epsilon). -/
theorem claim_C7_sort_sorted (scores : List Score)
    (h : ∀ s ∈ scores, s.mean_score ≠ F64.nan) :
    (sort scores).Perm scores ∧
    (sort scores).Pairwise (fun a b =>
      b.mean_score.flt a.mean_score = true ∨
        (a.mean_score.feq b.mean_score = true ∧ strLt b.player_id a.player_id = false)) := by
  refine ⟨sort_perm scores, ?_⟩
  have hp := sort_pairwise scores h
  have hnan : ∀ s ∈ sort scores, s.mean_score ≠ F64.nan :=
    fun s hs => h s ((sort_perm scores).mem_iff.mp hs)
  refine List.Pairwise.imp_of_mem ?_ hp
  intro a b hma hmb hnegt
  have ha := hnan a hma
  have hb := hnan b hmb
  have hlt : cmpScore a b = Ordering.lt := by
    rcases cmpScore_lt_or_gt a b with h' | h'
    · exact h'
    · exact absurd h' hnegt
  rw [cmpScore_lt_iff ha hb] at hlt
  rcases hlt with hf | ⟨he, hs⟩
  · exact Or.inl hf
  · exact Or.inr ⟨(feq_true_iff ha hb).mpr he, hs⟩

/-- Witness for the amended C7 on a concrete three-element sequence
(a tie on mean 90 plus a lower mean): the sort permutes its input. -/
theorem claim_C7_witness :
    (sort [Score.mk "b" (F64.fin 90) (F64.fin 90) 1,
           Score.mk "c" (F64.fin 70) (F64.fin 70) 1,
           Score.mk "a" (F64.fin 90) (F64.fin 90) 1]).Perm
      [Score.mk "b" (F64.fin 90) (F64.fin 90) 1,
       Score.mk "c" (F64.fin 70) (F64.fin 70) 1,
       Score.mk "a" (F64.fin 90) (F64.fin 90) 1] :=
  (claim_C7_sort_sorted [Score.mk "b" (F64.fin 90) (F64.fin 90) 1,
    Score.mk "c" (F64.fin 70) (F64.fin 70) 1,
    Score.mk "a" (F64.fin 90) (F64.fin 90) 1] (by decide)).1
